import Mathlib

/-!
Verification of the jopi-crawler core (src/_packages/jopi-crawler/src/core.ts,
src/_packages/jopi-crawler/src/webSiteMirrorCache.ts) against its
natural-language specification.

JavaScript strings are embedded as lists of characters (`Str`), so that the
exact index/substring arithmetic of the source can be reproduced.  Stateful
methods of the `WebSiteCrawler` class become functions threading an explicit
`CrawlState`; the network and filesystem are abstracted as explicit parameters
(a `web` function giving, for each fetched URL, the raw strings the body hands
to `pushUrl`; boolean outcomes for `mkdir`/write).  Loops that the source runs
until a mutable queue drains are given explicit fuel.
-/

/-- JavaScript strings, embedded as lists of characters. -/
abbrev Str : Type := List Char

/-- Shorthand turning a Lean string literal into the `Str` embedding. -/
def str (s : String) : Str := s.toList

/-- JS `String.prototype.trim` (both ends, whitespace). -/
def jsTrim (s : Str) : Str :=
  ((s.dropWhile Char.isWhitespace).reverse.dropWhile Char.isWhitespace).reverse

/-- JS `a.startsWith(b)`. -/
def jsStartsWith (s pre : Str) : Bool := pre.isPrefixOf s

/-- JS `a.includes(b)` (substring test). -/
def jsIncludes (s sub : Str) : Bool :=
  (List.range (s.length + 1)).any (fun i => sub.isPrefixOf (s.drop i))

/-- JS `a.endsWith(c)` for a one-character suffix `c`. -/
def jsEndsWithChar (s : Str) (c : Char) : Bool := s.getLast? = some c

/-- JS `a.indexOf(c)` for a single character, `none` for `-1`. -/
def jsIndexOfChar (s : Str) (c : Char) : Option Nat := s.findIdx? (· = c)

/-- JS `a.lastIndexOf(c)` for a single character, `none` for `-1`. -/
def jsLastIndexOfChar (s : Str) (c : Char) : Option Nat :=
  (s.reverse.findIdx? (· = c)).map (fun i => s.length - 1 - i)

/-- JS `a.toLowerCase()`. -/
def jsToLower (s : Str) : Str := s.map Char.toLower

/-- JS `a.split(c)` for a one-character separator: `"a/b/".split("/")` is
`["a","b",""]` and `"".split("/")` is `[""]`. -/
def jsSplitChar : Str → Char → List Str
  | [], _ => [[]]
  | c :: cs, sep =>
    if c = sep then [] :: jsSplitChar cs sep
    else
      match jsSplitChar cs sep with
      | [] => [[c]]
      | h :: t => (c :: h) :: t

/-- Index of the first occurrence of `sub` in `s`, `none` when absent
(JS `s.indexOf(sub)` with `-1` as `none`). -/
def idxOfSub (sub : Str) : Str → Option Nat
  | [] => if sub.isPrefixOf ([] : Str) then some 0 else none
  | c :: cs =>
    if sub.isPrefixOf (c :: cs) then some 0
    else (idxOfSub sub cs).map (· + 1)

/-- Pathname of an absolute URL string: the text from the first `/` after
`://` up to (excluding) the first `?` or `#`; `/` when the URL has no path.
Models the WHATWG `URL.pathname` getter for well-formed http/file URLs
(percent-decoding is elided). -/
def urlPathname (u : Str) : Str :=
  match idxOfSub (str "://") u with
  | none => u
  | some i =>
    let afterScheme := u.drop (i + 3)
    let hostPart := afterScheme.takeWhile (· ≠ '/')
    let rest := afterScheme.drop hostPart.length
    if rest = [] then ['/']
    else rest.takeWhile (fun c => c ≠ '?' ∧ c ≠ '#')

/-! ## Mirror cache (webSiteMirrorCache.ts)

A WHATWG URL object is embedded as a record of its components.  `calKey`
(lines 13-21) clones the URL, forces hostname `localhost`, empty port and
scheme `file:`, serializes it and converts the file URL to a local path; the
platform `fileURLToPath` returns the (decoded) pathname of the file URL. -/

/-- Components of a parsed absolute URL (`new URL(...)`).  `scheme` includes
the trailing colon (as `URL.protocol` does), `search` is empty or starts with
`?`, `hash` is empty or starts with `#`. -/
structure MUrl where
  scheme : Str
  host : Str
  port : Option Str
  path : Str
  search : Str
  frag : Str
deriving DecidableEq, Repr

/-- Serialization of a URL record (`URL.toString()`). -/
def urlToString (u : MUrl) : Str :=
  u.scheme ++ str "//" ++ u.host ++
    (match u.port with
     | none => []
     | some p => ':' :: p) ++ u.path ++ u.search ++ u.frag

/-- The platform `fileURLToPath`: the pathname of the serialized file URL
(percent-decoding elided). -/
def fileURLToPath (s : Str) : Str := urlPathname s

/-- WebSiteMirrorCache.calKey (webSiteMirrorCache.ts lines 13-21): clone the
URL, set hostname to `localhost`, clear the port, set the protocol to
`file:`, serialize and convert to a local path. -/
def calKey (u : MUrl) : Str :=
  fileURLToPath (urlToString { u with host := str "localhost", port := none, scheme := str "file:" })

/-- Node `path.extname`: the last `.`-suffix of the basename, empty for a
basename without a dot or whose only dot is its first character. -/
def pathExtname (p : Str) : Str :=
  let base := match jsLastIndexOfChar p '/' with
    | none => p
    | some i => p.drop (i + 1)
  match jsLastIndexOfChar base '.' with
  | none => []
  | some 0 => []
  | some i => base.drop i

/-- WebSiteMirrorCache.calcFilePath (webSiteMirrorCache.ts lines 23-34).
`path.join(rootDir, key)` is modelled as concatenation: `rootDir` is an
absolute path without a trailing slash and the key starts with `/`. -/
def calcFilePath (rootDir : Str) (u : MUrl) : Str :=
  let fp := rootDir ++ calKey u
  if jsEndsWithChar fp '/' then fp ++ str "index.html"
  else if pathExtname fp = [] then fp ++ str "/index.html"
  else fp

/-! ## addToCache (webSiteMirrorCache.ts lines 36-58)

The filesystem is abstracted by the success of the two operations the method
performs: the recursive `fs.mkdir` of the parent directory (awaited outside
any try/catch) and the body write (inside `try`, whose `catch` logs the error
and returns a 500 response).  The result records, in order, the filesystem
operations attempted, and either the status of the returned response or a
promise rejection (`Except.error`). -/

/-- A filesystem operation attempted by `addToCache`. -/
inductive FsOp where
  /-- `fs.mkdir(path.dirname(filePath), {recursive: true})`. -/
  | mkdirRecursive
  /-- The write of the response body to the computed path. -/
  | writeFile
deriving DecidableEq, Repr

/-- WebSiteMirrorCache.addToCache: persist only a 200 response; create parent
directories first; a failing write is caught, logged, and turned into a 500
response rather than a rejection.  A failing `mkdir` (outside the try) rejects
the promise, modelled by `Except.error`. -/
def addToCache (status : Nat) (mkdirOk : Bool) (writeOk : Bool) :
    List FsOp × Except Unit Nat :=
  if status ≠ 200 then ([], Except.ok status)
  else if ¬mkdirOk then ([FsOp.mkdirRecursive], Except.error ())
  else if writeOk then ([FsOp.mkdirRecursive, FsOp.writeFile], Except.ok 200)
  else ([FsOp.mkdirRecursive, FsOp.writeFile], Except.ok 500)

/-! ## Retry loop of processUrl (core.ts lines 527-576)

The fetch of attempt `i` returns HTTP status `status i`.  The loop body:
status 200 returns OK; a 3xx returns REDIRECTED; otherwise, with no
`onInvalidResponseCodeFound` hook, the default policy retries while
`retryCount < 3` after sleeping `1000 * retryCount` ms, and returns ERROR when
exhausted.  With a hook, its boolean decides (no sleep).  The loop can run
unboundedly when a hook always answers true, so it takes fuel; the result
records the number of fetch attempts performed and the sleep durations. -/

/-- Result of processUrl (core.ts lines 159-161). -/
inductive PResult where
  | ok
  | redirected
  | error
  | ignored
deriving DecidableEq, Repr

/-- The retry loop of processUrl.  Arguments: statuses of successive fetch
attempts, the optional `onInvalidResponseCodeFound` hook (given the retry
count and the status), fuel, the index of the next attempt, the current
`retryCount`, and the sleeps performed so far. -/
def fetchRetryLoop (status : Nat → Nat) (hook : Option (Nat → Nat → Bool)) :
    Nat → Nat → Nat → List Nat → Option (Nat × List Nat × PResult)
  | 0, _, _, _ => none
  | fuel + 1, attempt, retryCount, sleeps =>
    let s := status attempt
    if s = 200 then some (attempt + 1, sleeps, PResult.ok)
    else if 300 ≤ s ∧ s < 400 then some (attempt + 1, sleeps, PResult.redirected)
    else
      match hook with
      | some h =>
        if h retryCount s then fetchRetryLoop status hook fuel (attempt + 1) (retryCount + 1) sleeps
        else some (attempt + 1, sleeps, PResult.error)
      | none =>
        if retryCount < 3 then
          fetchRetryLoop status hook fuel (attempt + 1) (retryCount + 1) (sleeps ++ [1000 * retryCount])
        else some (attempt + 1, sleeps, PResult.error)

/-! ## Theorems for claims C5, C6, C7 -/

/-- Claim C5: for a URL whose fetch always returns a status that is neither
200 nor in [300,400), with no onInvalidResponseCodeFound hook, the retry loop
of processUrl performs exactly four fetch attempts, sleeping 0 ms, 1000 ms and
2000 ms before the three retries (duration 1000 * retryCount), and returns
ERROR. -/
theorem retry_default_four_attempts (status : Nat → Nat)
    (hbad : ∀ i, status i ≠ 200 ∧ ¬(300 ≤ status i ∧ status i < 400))
    (fuel : Nat) (hfuel : 4 ≤ fuel) :
    fetchRetryLoop status none fuel 0 0 [] =
      some (4, [0, 1000, 2000], PResult.error) := by
  obtain ⟨k, rfl⟩ : ∃ k, fuel = k + 4 := ⟨fuel - 4, by omega⟩
  show fetchRetryLoop status none (k + 3 + 1) 0 0 [] = _
  simp only [fetchRetryLoop]
  rw [if_neg (hbad 0).1, if_neg (hbad 0).2, if_pos (by omega : 0 < 3)]
  show fetchRetryLoop status none (k + 2 + 1) 1 1 [0] = _
  simp only [fetchRetryLoop]
  rw [if_neg (hbad 1).1, if_neg (hbad 1).2, if_pos (by omega : 1 < 3)]
  show fetchRetryLoop status none (k + 1 + 1) 2 2 [0, 1000] = _
  simp only [fetchRetryLoop]
  rw [if_neg (hbad 2).1, if_neg (hbad 2).2, if_pos (by omega : 2 < 3)]
  show fetchRetryLoop status none (k + 0 + 1) 3 3 [0, 1000, 2000] = _
  simp only [fetchRetryLoop]
  rw [if_neg (hbad 3).1, if_neg (hbad 3).2, if_neg (by omega : ¬3 < 3)]

/-- Witness for C5: a fetch that always answers 500 is attempted four times
with sleeps 0, 1000, 2000 and ends in ERROR. -/
theorem retry_default_four_attempts_witness :
    fetchRetryLoop (fun _ => 500) none 4 0 0 [] =
      some (4, [0, 1000, 2000], PResult.error) :=
  retry_default_four_attempts (fun _ => 500)
    (fun _ => (by decide : (500 : Nat) ≠ 200 ∧ ¬(300 ≤ (500 : Nat) ∧ (500 : Nat) < 400)))
    4 (by decide)

/-- Helper: `takeWhile` of an append keeps exactly the left part when the
predicate holds on all of it and fails on the first character of the rest. -/
theorem takeWhile_eq_of_all (pred : Char → Bool) (p rest : Str)
    (h : ∀ c ∈ p, pred c = true)
    (h2 : ∀ c, rest.head? = some c → pred c = false) :
    (p ++ rest).takeWhile pred = p := by
  induction p with
  | nil =>
    cases rest with
    | nil => rfl
    | cons c cs => simp [List.takeWhile_cons, h2 c rfl]
  | cons a as ih =>
    have ha := h a (by simp)
    have hrec := ih (fun c hc => h c (by simp [hc]))
    simp [List.takeWhile_cons, ha, hrec]

/-- Helper: `calKey` of a URL whose path is well formed (starts with `/`,
contains no `?` or `#`; search and fragment, when present, start with their
marker characters) is exactly the URL's pathname: scheme, host, port, query
and fragment are all discarded. -/
theorem calKey_eq_path (u : MUrl) (p : Str) (hp : u.path = '/' :: p)
    (hpc : ∀ c ∈ p, c ≠ '?' ∧ c ≠ '#')
    (hs : ∀ c, u.search.head? = some c → c = '?')
    (hf : ∀ c, u.frag.head? = some c → c = '#') :
    calKey u = u.path := by
  obtain ⟨sc, ho, po, pa, se, fr⟩ := u
  dsimp only at hp hs hf ⊢
  subst hp
  have key : calKey ⟨sc, ho, po, '/' :: p, se, fr⟩ =
      List.takeWhile (fun c => decide (c ≠ '?' ∧ c ≠ '#')) ('/' :: ((p ++ se) ++ fr)) := rfl
  rw [key, List.takeWhile_cons, if_pos (by decide), List.append_assoc]
  congr 1
  refine takeWhile_eq_of_all _ p (se ++ fr) ?_ ?_
  · intro c hc
    simpa using hpc c hc
  · intro c hc
    cases se with
    | nil =>
      simp only [List.nil_append] at hc
      have hcf := hf c hc
      subst hcf
      decide
    | cons a as =>
      simp only [List.cons_append, List.head?_cons, Option.some.injEq] at hc
      have hca := hs c (by simp [hc])
      subst hca
      decide

/-- Claim C6: calcFilePath is a deterministic function of the URL: the
hostname is replaced by localhost and the port and scheme are dropped before
conversion to a path under the root directory, so two URLs differing only in
scheme, hostname or port (same path) map to the same filesystem path; a
computed path ending in `/` has `index.html` appended, and a path whose last
segment has no extension has `/index.html` appended. -/
theorem calcFilePath_claims (root : Str) (u v : MUrl) (p q : Str)
    (hu : u.path = '/' :: p) (hv : v.path = '/' :: q)
    (hup : ∀ c ∈ p, c ≠ '?' ∧ c ≠ '#') (hvq : ∀ c ∈ q, c ≠ '?' ∧ c ≠ '#')
    (hus : ∀ c, u.search.head? = some c → c = '?')
    (huf : ∀ c, u.frag.head? = some c → c = '#')
    (hvs : ∀ c, v.search.head? = some c → c = '?')
    (hvf : ∀ c, v.frag.head? = some c → c = '#') :
    (u.path = v.path → calcFilePath root u = calcFilePath root v) ∧
    (jsEndsWithChar (root ++ u.path) '/' = true →
      calcFilePath root u = root ++ u.path ++ str "index.html") ∧
    (jsEndsWithChar (root ++ u.path) '/' = false →
      pathExtname (root ++ u.path) = [] →
      calcFilePath root u = root ++ u.path ++ str "/index.html") := by
  have hku : calKey u = u.path := calKey_eq_path u p hu hup hus huf
  have hkv : calKey v = v.path := calKey_eq_path v q hv hvq hvs hvf
  refine ⟨?_, ?_, ?_⟩
  · intro hpath
    simp only [calcFilePath, hku, hkv, hpath]
  · intro hend
    simp [calcFilePath, hku, hend, List.append_assoc]
  · intro hend hext
    simp [calcFilePath, hku, hend, hext, List.append_assoc]

/-- Witness for C6: `https://site.example:8080/a/b` and `http://other.host/a/b`
map to the same path under root `/out`, namely `/out/a/b/index.html` (last
segment `b` has no extension). -/
theorem calcFilePath_claims_witness :
    (calcFilePath (str "/out")
        ⟨str "https:", str "site.example", some (str "8080"), str "/a/b", [], []⟩ =
      calcFilePath (str "/out")
        ⟨str "http:", str "other.host", none, str "/a/b", [], []⟩) ∧
    (calcFilePath (str "/out")
        ⟨str "https:", str "site.example", some (str "8080"), str "/a/b", [], []⟩ =
      str "/out" ++ str "/a/b" ++ str "/index.html") := by
  have main := calcFilePath_claims (str "/out")
    ⟨str "https:", str "site.example", some (str "8080"), str "/a/b", [], []⟩
    ⟨str "http:", str "other.host", none, str "/a/b", [], []⟩
    (str "a/b") (str "a/b") (by decide) (by decide)
    (by decide) (by decide)
    (fun c hc => Option.noConfusion hc) (fun c hc => Option.noConfusion hc)
    (fun c hc => Option.noConfusion hc) (fun c hc => Option.noConfusion hc)
  exact ⟨main.1 rfl, main.2.2 (by decide) (by decide)⟩

/-- Claim C7: addToCache persists a response only when its status is 200
(non-200 responses perform no filesystem operation and pass the response
through); for a 200 response the parent directory is created recursively
before the write is attempted, and a write failure never rejects the returned
promise (the error is caught and logged). -/
theorem addToCache_claims (status : Nat) (m w : Bool) :
    (status ≠ 200 → addToCache status m w = ([], Except.ok status)) ∧
    (status = 200 → m = true →
      (addToCache status m w).1 = [FsOp.mkdirRecursive, FsOp.writeFile] ∧
      ∀ r, (addToCache status m w).2 ≠ Except.error r) := by
  constructor
  · intro hne
    unfold addToCache
    rw [if_pos hne]
  · intro h200 hm
    subst h200 hm
    unfold addToCache
    cases w <;> simp

/-- Witness for C7: a 404 response is not persisted; a 200 response with a
failing write still resolves (no rejection) after mkdir and write. -/
theorem addToCache_claims_witness :
    (addToCache 404 true true = ([], Except.ok 404)) ∧
    ((addToCache 200 true false).1 = [FsOp.mkdirRecursive, FsOp.writeFile] ∧
      ∀ r, (addToCache 200 true false).2 ≠ Except.error r) :=
  ⟨(addToCache_claims 404 true true).1 (by decide),
   (addToCache_claims 200 true false).2 rfl rfl⟩

/-! ## WebSiteCrawler: configuration and traversal state (core.ts)

The crawler instance is split into an immutable configuration (fields
computed by the constructor, options, and the platform/network collaborators)
and a mutable traversal state.  `forbiddenUrls` holds the already-cleaned
prefixes (the constructor passes each configured entry through
`forbidUrlFrom`, which cleans it before storing).  The network is abstracted
by `web`, giving for each fetched URL what its body makes the crawler do:
for HTML, the raw attribute strings the rewriter hands to `pushUrl`; for CSS,
the strings `parseCssUrls` extracts; a redirect's Location header; or a
permanently failing status.  The two `new URL(...)` constructions inside
`resolveRelativeUrl` are delegated to platform hooks in the configuration. -/

/-- A page together with the resource stack discovered while processing it
(core.ts lines 154-157); `stack` is `none` for the JS `undefined`. -/
structure UrlGroup where
  url : Str
  stack : Option (List Str)
deriving DecidableEq, Repr

/-- What fetching a URL does, as observed through `pushUrl` (the network
abstraction for processUrl, core.ts lines 527-617). -/
inductive FetchOutcome where
  /-- 200 with Content-Type text/html: the rewriter pushes these raw
  attribute values, in order. -/
  | okHtml (found : List Str)
  /-- 200 with Content-Type text/css: `parseCssUrls` extracted these. -/
  | okCss (found : List Str)
  /-- 200 with another Content-Type: body passed through. -/
  | okOther
  /-- 3xx with an optional Location header. -/
  | redirect (location : Option Str)
  /-- A status outside 200/3xx on every attempt: the default retry policy
  ends in ERROR. -/
  | failAlways

/-- Immutable part of a WebSiteCrawler. -/
structure CrawlConfig where
  /-- newWebSite_basePath: the output origin, no trailing slash. -/
  basePath : Str
  /-- newWebSite_lcBasePath. -/
  lcBasePath : Str
  /-- newWebSite_urlInfos.protocol, e.g. `https:`. -/
  protocol : Str
  /-- options.requiredPrefix after the constructor lowercased/defaulted it. -/
  requiredPrefix : Str
  /-- requiredPrefix2 (core.ts lines 206-213). -/
  requiredPrefix2 : Str
  requireRelocatableUrl : Bool
  rewriteThisUrls : List Str
  /-- Cleaned forbidden prefixes (forbidUrlFrom, core.ts lines 273-280). -/
  forbiddenUrls : List Str
  scanThisUrls : List Str
  canDownload : Option (Str → Bool → Bool)
  sortPagesToDownload : Option (List Str → List Str)
  onPageFullyDownloaded : Option (Str → PResult → Bool)
  transformUrl : Option (Str → Str → Bool → Str)
  /-- urlMapping.resolveURL: partial URL to the URL to fetch, `none` when the
  mapping cannot resolve it. -/
  urlMapping : Str → Option Str
  /-- Combination of fileSystemWriter and canIgnoreIfAlreadyCrawled (the
  cache lookup is filesystem state, abstracted into a predicate on the URL):
  `some f` with `f url = true` makes processUrl return IGNORED. -/
  ignoreIfCached : Option (Str → Bool)
  /-- Platform `new URL(url, base)` for a `.`-relative url (core.ts 806). -/
  urlResolveDot : Str → Str → Str
  /-- Platform URL re-serialization with protocol/port overridden (core.ts
  797-801; unreachable from cleanUpUrlAux, which intercepts `//`). -/
  urlSchemeRel : Str → Str
  /-- The network (see FetchOutcome). -/
  web : Str → FetchOutcome

/-- Mutable part of a WebSiteCrawler (fields of the class, core.ts lines
163-179), plus the instrumentation field `fetched` recording, in order, every
URL passed to processUrl. -/
structure CrawlState where
  urlDone : List Str
  groupStack : List UrlGroup
  currentGroup : UrlGroup
  isStarted : Bool
  /-- Instrumentation: URLs passed to processUrl, in call order. -/
  fetched : List Str
deriving DecidableEq, Repr

/-- resolveRelativeUrl (core.ts lines 795-810).  `baseToString` is the
serialization of the base URL object (`URL.toString()`; for the origin object
`newWebSite_urlInfos` this is the origin followed by `/`). -/
def resolveRelativeUrl (cfg : CrawlConfig) (url : Str) (baseToString : Str) : Str :=
  match url with
  | '/' :: '/' :: _ => cfg.urlSchemeRel url
  | '/' :: rest => baseToString ++ rest
  | '.' :: _ => cfg.urlResolveDot url baseToString
  | _ => url

/-- rewriteSourceSiteUrl (core.ts lines 704-717): the first prefix of
`rewriteThisUrls` that the URL starts with is replaced by the output origin. -/
def rewriteSourceSiteUrl (cfg : CrawlConfig) (url : Str) : Str :=
  match cfg.rewriteThisUrls.find? (fun p => jsStartsWith url p) with
  | some p => cfg.basePath ++ url.drop p.length
  | none => url

/-- cleanUpUrlAux (core.ts lines 302-348).  `currentGroupUrl` is
`this.currentGroup.url` (read by the `?` branch); `currentUrl` is the
parameter used by the CSS case; a CSS base `new URL(currentUrl)` serializes
back to `currentUrl` (already a normalized absolute URL). -/
def cleanUpUrlAux (cfg : CrawlConfig) (currentGroupUrl : Str) (url0 : Option Str)
    (isCss : Bool) (currentUrl : Option Str) : Option Str :=
  match url0 with
  | none => none
  | some u0 =>
    let url := jsTrim u0
    if url = [] then none
    else if url.head? = some '#' then none
    else
      let step :=
        if ¬ jsIncludes url (str "://") then
          let url1 :=
            if url.head? = some '?' then
              let cur := match jsIndexOfChar currentGroupUrl '?' with
                | some i => currentGroupUrl.take i
                | none => currentGroupUrl
              some (cur ++ url)
            else if jsIncludes url (str ":") then
              if jsStartsWith url (str "data:") then none
              else if jsStartsWith url (str "javascript:") then none
              else if jsStartsWith url (str "mailto:") then none
              else if jsStartsWith url (str "tel:") then none
              else if jsStartsWith url (str "sms:") then none
              else if jsStartsWith url (str "ftp:") then none
              else some url
            else some url
          match url1 with
          | none => none
          | some u =>
            if jsStartsWith u (str "//") then
              if ¬ jsStartsWith (jsToLower u) cfg.requiredPrefix2 then none
              else some (cfg.protocol ++ u)
            else if u.head? = some '/' then
              some (resolveRelativeUrl cfg u (cfg.basePath ++ ['/']))
            else if isCss then
              some (resolveRelativeUrl cfg u (currentUrl.getD []))
            else
              some (resolveRelativeUrl cfg u (cfg.basePath ++ ['/']))
        else some (rewriteSourceSiteUrl cfg url)
      match step with
      | none => none
      | some u2 =>
        if ¬ jsStartsWith (jsToLower u2) cfg.requiredPrefix then none
        else some (jsTrim u2)

/-- _cleanUpUrl (core.ts lines 288-290). -/
def cleanUpUrl (cfg : CrawlConfig) (currentGroupUrl : Str) (url : Option Str) : Option Str :=
  cleanUpUrlAux cfg currentGroupUrl url false none

/-- cleanUpCssUrl (core.ts lines 298-300). -/
def cleanUpCssUrl (cfg : CrawlConfig) (currentGroupUrl : Str) (url baseUrl : Str) : Option Str :=
  cleanUpUrlAux cfg currentGroupUrl (some url) true (some baseUrl)

/-- pushUrl (core.ts lines 354-378): clean the URL; an already-seen URL is
returned without re-pushing; otherwise it is recorded in `urlDone`, then a
URL equal to or extending a forbidden prefix is returned without being
stacked; otherwise it is appended to the current group's stack.  (The JS
`if (!url) return ""` for the empty string is subsumed: cleaning an empty
string yields `none`.) -/
def pushUrl (cfg : CrawlConfig) (st : CrawlState) (url0 : Option Str) : Str × CrawlState :=
  match cleanUpUrl cfg st.currentGroup.url url0 with
  | none => ([], st)
  | some url =>
    if url ∈ st.urlDone then (url, st)
    else
      let st1 := { st with urlDone := st.urlDone ++ [url] }
      if url ∈ cfg.forbiddenUrls then (url, st1)
      else
        match cfg.forbiddenUrls.find? (fun p => jsStartsWith url p) with
        | some _ => (url, st1)
        | none =>
          let stack := st1.currentGroup.stack.getD []
          (url, { st1 with currentGroup := { st1.currentGroup with stack := some (stack ++ [url]) } })

/-- JS `url.substring(0, url.indexOf(c))` guarded by `indexOf !== -1`
(the query/fragment stripping steps of urlTool_buildFileSystemUrl). -/
def stripAfterChar (url : Str) (c : Char) : Str :=
  match jsIndexOfChar url c with
  | some i => url.take i
  | none => url

/-- Index conversion of urlTool_buildFileSystemUrl (core.ts lines 765-774):
a URL ending in `/` gets `index.html` appended; otherwise a last segment
without a dot gets `/index.html` appended. -/
def applyIndexConvention (url : Str) : Str :=
  if jsEndsWithChar url '/' then url ++ str "index.html"
  else
    let lastSegment := match jsLastIndexOfChar url '/' with
      | none => url
      | some i => url.drop (i + 1)
    if ¬ lastSegment.contains '.' then url ++ str "/index.html"
    else url

/-- The `for` loop of core.ts line 788: prepend `../` `n` times. -/
def prependUp : Nat → Str → Str
  | 0, u => u
  | n + 1, u => prependUp n (str "../" ++ u)

/-- urlTool_buildFileSystemUrl (core.ts lines 752-792). -/
def urlTool_buildFileSystemUrl (cfg : CrawlConfig) (currentGroupUrl : Str) (url0 : Str) : Str :=
  if ¬ cfg.requireRelocatableUrl then url0
  else
    let url := applyIndexConvention (stripAfterChar (stripAfterChar url0 '?') '#')
    if jsStartsWith url cfg.lcBasePath then
      let url1 := url.drop (cfg.lcBasePath.length + 1)
      let currentUrl := currentGroupUrl.drop (cfg.lcBasePath.length + 1)
      if currentUrl = [] then url1
      else if url1 = currentUrl then url1
      else
        let backCount0 := (jsSplitChar currentUrl '/').length
        let backCount := if jsEndsWithChar currentUrl '/' then backCount0 - 1 else backCount0
        prependUp backCount url1
    else url

/-- transformFoundUrl (core.ts lines 722-736). -/
def transformFoundUrl (cfg : CrawlConfig) (st : CrawlState) (url : Str)
    (enableRelocatable : Bool) : Str :=
  let url1 := match cfg.transformUrl with
    | some f => f url st.currentGroup.url cfg.requireRelocatableUrl
    | none => url
  if enableRelocatable && cfg.requireRelocatableUrl then
    urlTool_buildFileSystemUrl cfg st.currentGroup.url url1
  else url1

/-- Body of the `parts.forEach` in the img srcset handler (core.ts lines
678-691): trim the part, drop it silently when it has no space, split at the
first space into URL and descriptor, push the URL, transform, and append
`,url size` to the accumulator. -/
def handleSrcsetPart (cfg : CrawlConfig) (acc : Str × CrawlState) (part : Str) :
    Str × CrawlState :=
  let p := jsTrim part
  match jsIndexOfChar p ' ' with
  | none => acc
  | some idx =>
    let url := p.take idx
    let size := p.drop (idx + 1)
    let pushed := pushUrl cfg acc.2 (some url)
    let url1 := if url.length ≠ 0 then pushed.1 else url
    let url2 := transformFoundUrl cfg pushed.2 url1 true
    (acc.1 ++ (',' :: url2) ++ (' ' :: size), pushed.2)

/-- The img srcset handler (core.ts lines 670-695): split the attribute on
`,`, process each part, and set the result minus its leading comma. -/
def handleSrcset (cfg : CrawlConfig) (st : CrawlState) (srcset : Str) : Str × CrawlState :=
  let parts := jsSplitChar srcset ','
  let r := parts.foldl (handleSrcsetPart cfg) ([], st)
  (r.1.drop 1, r.2)

/-! ## Helper lemmas on the string embedding -/

/-- A list is a `isPrefixOf`-prefix of itself followed by anything. -/
theorem isPrefixOf_append_self (a b : Str) : a.isPrefixOf (a ++ b) = true := by
  induction a with
  | nil => exact List.isPrefixOf_nil_left
  | cons c cs ih => simp [List.isPrefixOf, ih]

/-- `jsStartsWith` is reflexive. -/
theorem jsStartsWith_self (s : Str) : jsStartsWith s s = true := by
  have h := isPrefixOf_append_self s []
  rw [List.append_nil] at h
  exact h

/-- Dropping the base and one more character from `base ++ c :: p` leaves `p`. -/
theorem drop_len_succ_append (a : Str) (c : Char) (p : Str) :
    (a ++ c :: p).drop (a.length + 1) = p := by
  induction a with
  | nil => rfl
  | cons x xs ih =>
    show List.drop (xs.length + 1 + 1) (x :: (xs ++ c :: p)) = p
    rw [List.drop_succ_cons]
    exact ih

/-! ## Concrete configurations used by witnesses and counterexamples -/

/-- A crawler for origin `https://site` with default options (constructor
defaults: requiredPrefix is the origin, requireRelocatableUrl true, no hooks,
identity single-site mapping). -/
def cfgSite : CrawlConfig :=
  { basePath := str "https://site", lcBasePath := str "https://site",
    protocol := str "https:", requiredPrefix := str "https://site",
    requiredPrefix2 := str "//site", requireRelocatableUrl := true,
    rewriteThisUrls := [], forbiddenUrls := [], scanThisUrls := [],
    canDownload := none, sortPagesToDownload := none,
    onPageFullyDownloaded := none, transformUrl := none,
    urlMapping := fun p => some (str "https://site" ++ p),
    ignoreIfCached := none, urlResolveDot := fun u _ => u,
    urlSchemeRel := fun u => u, web := fun _ => FetchOutcome.okOther }

/-- `cfgSite` with `forbiddenUrls = ["/wp-json"]` as the constructor stores
it: `forbidUrlFrom` cleans the entry to `https://site/wp-json`. -/
def cfgForbid : CrawlConfig := { cfgSite with forbiddenUrls := [str "https://site/wp-json"] }

/-- Fresh traversal state whose current group is the origin page. -/
def stSite : CrawlState :=
  { urlDone := [], groupStack := [],
    currentGroup := { url := str "https://site", stack := some [] },
    isStarted := false, fetched := [] }

/-- A crawler for origin `https://site.example` with default options. -/
def cfgSiteExample : CrawlConfig :=
  { basePath := str "https://site.example", lcBasePath := str "https://site.example",
    protocol := str "https:", requiredPrefix := str "https://site.example",
    requiredPrefix2 := str "//site.example", requireRelocatableUrl := true,
    rewriteThisUrls := [], forbiddenUrls := [], scanThisUrls := [],
    canDownload := none, sortPagesToDownload := none,
    onPageFullyDownloaded := none, transformUrl := none,
    urlMapping := fun p => some (str "https://site.example" ++ p),
    ignoreIfCached := none, urlResolveDot := fun u _ => u,
    urlSchemeRel := fun u => u, web := fun _ => FetchOutcome.okOther }

/-- Traversal state whose current group is the page `https://site.example/p/`. -/
def stPageP : CrawlState :=
  { urlDone := [], groupStack := [],
    currentGroup := { url := str "https://site.example/p/", stack := some [] },
    isStarted := false, fetched := [] }

/-! ## Theorems for claims C2, C3 -/

/-- Claim C2: pushUrl on a URL that survives cleanup first checks the seen
set and returns the URL without re-pushing when already seen; otherwise it
records the URL in the seen set, then a URL equal to or starting with a
forbidden prefix is returned (non-empty, so the rewriter still rewrites the
attribute) without being appended to the current group's stack or to the
group queue; only non-seen, non-forbidden URLs are appended to the stack. -/
theorem pushUrl_claims (cfg : CrawlConfig) (st : CrawlState) (u0 u : Str)
    (hc : cleanUpUrl cfg st.currentGroup.url (some u0) = some u) :
    (u ∈ st.urlDone → pushUrl cfg st (some u0) = (u, st)) ∧
    (u ∉ st.urlDone →
      (pushUrl cfg st (some u0)).1 = u ∧
      (pushUrl cfg st (some u0)).2.urlDone = st.urlDone ++ [u] ∧
      ((∃ q ∈ cfg.forbiddenUrls, jsStartsWith u q = true) →
        (pushUrl cfg st (some u0)).2.currentGroup.stack = st.currentGroup.stack ∧
        (pushUrl cfg st (some u0)).2.groupStack = st.groupStack) ∧
      ((∀ q ∈ cfg.forbiddenUrls, jsStartsWith u q = false) →
        (pushUrl cfg st (some u0)).2.currentGroup.stack =
          some (st.currentGroup.stack.getD [] ++ [u]))) := by
  simp only [pushUrl, hc]
  constructor
  · intro hmem
    rw [if_pos hmem]
  · intro hmem
    rw [if_neg hmem]
    by_cases hforb : u ∈ cfg.forbiddenUrls
    · rw [if_pos hforb]
      refine ⟨rfl, rfl, fun _ => ⟨rfl, rfl⟩, fun hall => ?_⟩
      have hcontra := hall u hforb
      rw [jsStartsWith_self u] at hcontra
      exact absurd hcontra (by simp)
    · rw [if_neg hforb]
      cases hfind : cfg.forbiddenUrls.find? (fun q => jsStartsWith u q) with
      | some q =>
        refine ⟨rfl, rfl, fun _ => ⟨rfl, rfl⟩, fun hall => ?_⟩
        have hq := List.find?_some hfind
        have hqmem := List.mem_of_find?_eq_some hfind
        have hcontra := hall q hqmem
        rw [hcontra] at hq
        exact absurd hq (by simp)
      | none =>
        refine ⟨rfl, rfl, fun hex => ?_, fun _ => rfl⟩
        obtain ⟨q, hqmem, hqpre⟩ := hex
        have hnone := List.find?_eq_none.mp hfind q hqmem
        rw [hqpre] at hnone
        exact absurd rfl hnone

/-- Witness for C2: with `forbidden_urls = ["/wp-json"]` (stored cleaned as
`https://site/wp-json`), pushing `/wp-json/users` cleans to the non-empty
`https://site/wp-json/users`, which enters the seen set but not the stack. -/
theorem pushUrl_claims_witness :
    ((pushUrl cfgForbid stSite (some (str "/wp-json/users"))).1 =
        str "https://site/wp-json/users" ∧
      (pushUrl cfgForbid stSite (some (str "/wp-json/users"))).2.urlDone =
        stSite.urlDone ++ [str "https://site/wp-json/users"] ∧
      (pushUrl cfgForbid stSite (some (str "/wp-json/users"))).2.currentGroup.stack =
        stSite.currentGroup.stack) ∧
    str "https://site/wp-json/users" ≠ [] := by
  have h := pushUrl_claims cfgForbid stSite (str "/wp-json/users")
    (str "https://site/wp-json/users") (by decide)
  have h2 := h.2 (by decide)
  refine ⟨⟨h2.1, h2.2.1, ?_⟩, by decide⟩
  exact (h2.2.2.1 ⟨str "https://site/wp-json", by decide, by decide⟩).1

/-- Counterexample for C3: a self-reference breaks the per-segment rule.
On the page `https://site/doc.html`, a link to `https://site/doc.html`
itself (reference and current page both under the output origin) is
rewritten by the code to `doc.html` with no `../` prefix (the early return
of core.ts line 783), while the claim's rule — one `../` per
split-component of the current page's origin-relative path, here one —
predicts `../doc.html`. -/
theorem buildFileSystemUrl_selfref_counterexample :
    urlTool_buildFileSystemUrl cfgSite (str "https://site/doc.html")
        (str "https://site/doc.html") = str "doc.html" ∧
      prependUp ((jsSplitChar (str "doc.html") '/').length -
          (if jsEndsWithChar (str "doc.html") '/' then 1 else 0)) (str "doc.html") =
        str "../doc.html" ∧
      str "doc.html" ≠ str "../doc.html" := by
  refine ⟨by decide, by decide, by decide⟩

/-- Claim C3 (amended): for a referenced URL and a current page both under
the output origin, urlTool_buildFileSystemUrl strips query and fragment,
applies the index.html convention, strips the origin from both, and prepends
one `../` per split-component of the current page's origin-relative path,
one fewer when that path ends with `/` — except that when the current page's
origin-relative path is empty, or when it equals the converted reference's
origin-relative path (a self-reference), the converted reference path is
returned with no `../` prefix. -/
theorem buildFileSystemUrl_amended (cfg : CrawlConfig) (cur url p c : Str)
    (hrel : cfg.requireRelocatableUrl = true)
    (hp : applyIndexConvention (stripAfterChar (stripAfterChar url '?') '#') =
      cfg.lcBasePath ++ '/' :: p)
    (hcur : cur = cfg.lcBasePath ++ '/' :: c) :
    (c = [] → urlTool_buildFileSystemUrl cfg cur url = p) ∧
    (p = c → urlTool_buildFileSystemUrl cfg cur url = p) ∧
    (c ≠ [] → p ≠ c →
      urlTool_buildFileSystemUrl cfg cur url =
        prependUp ((jsSplitChar c '/').length - (if jsEndsWithChar c '/' then 1 else 0)) p) := by
  have hred : urlTool_buildFileSystemUrl cfg cur url =
      (if c = [] then p
       else if p = c then p
       else prependUp (if jsEndsWithChar c '/' then (jsSplitChar c '/').length - 1
         else (jsSplitChar c '/').length) p) := by
    simp only [urlTool_buildFileSystemUrl, hrel, hp, hcur, jsStartsWith]
    rw [if_neg (by simp)]
    rw [if_pos (by rw [isPrefixOf_append_self])]
    rw [drop_len_succ_append, drop_len_succ_append]
  refine ⟨?_, ?_, ?_⟩
  · intro hc0
    rw [hred, if_pos hc0]
  · intro hpc
    rw [hred]
    by_cases hc0 : c = []
    · rw [if_pos hc0]
    · rw [if_neg hc0, if_pos hpc]
  · intro hcne hpc
    rw [hred, if_neg hcne, if_neg hpc]
    cases hE : jsEndsWithChar c '/' <;> simp

/-- Witness for C3 (amended): current page `https://site/a/b/` and reference
`https://site/x.png` give `../../x.png` by the per-segment rule. -/
theorem buildFileSystemUrl_amended_witness :
    urlTool_buildFileSystemUrl cfgSite (str "https://site/a/b/") (str "https://site/x.png") =
      str "../../x.png" := by
  have h := (buildFileSystemUrl_amended cfgSite (str "https://site/a/b/")
    (str "https://site/x.png") (str "x.png") (str "a/b/")
    rfl (by decide) (by decide)).2.2 (by decide) (by decide)
  rw [h]
  decide

/-! ## Theorems for claims C10, C4 (srcset handling) -/

/-- Claim C10: a srcset entry whose URL is rejected by the admission pipeline
(cleanup yields none, so pushUrl returns the empty string) is rewritten, under
the default relocatable setting with no transformUrl hook, to `/index.html`
followed by the original descriptor; the original URL text is replaced and
the crawler state is untouched (nothing admitted). -/
theorem srcset_rejected_entry (cfg : CrawlConfig) (st : CrawlState) (acc part url size : Str)
    (idx : Nat)
    (hidx : jsIndexOfChar (jsTrim part) ' ' = some idx)
    (hurl : (jsTrim part).take idx = url)
    (hsize : (jsTrim part).drop (idx + 1) = size)
    (hne : url ≠ [])
    (hrej : cleanUpUrl cfg st.currentGroup.url (some url) = none)
    (htr : cfg.transformUrl = none)
    (hrel : cfg.requireRelocatableUrl = true)
    (hlc : jsStartsWith (str "/index.html") cfg.lcBasePath = false) :
    handleSrcsetPart cfg (acc, st) part =
      (acc ++ (',' :: str "/index.html") ++ (' ' :: size), st) := by
  simp only [handleSrcsetPart, hidx, hurl, hsize]
  have hpush : pushUrl cfg st (some url) = ([], st) := by
    simp only [pushUrl, hrej]
  simp only [hpush]
  rw [if_pos (by simp [List.length_eq_zero, hne])]
  have htf : transformFoundUrl cfg st [] true = str "/index.html" := by
    simp only [transformFoundUrl, htr]
    rw [if_pos (by simp [hrel])]
    simp only [urlTool_buildFileSystemUrl, hrel]
    rw [if_neg (by simp)]
    have hconv : applyIndexConvention (stripAfterChar (stripAfterChar [] '?') '#') =
        str "/index.html" := by decide
    rw [hconv]
    rw [show jsStartsWith (str "/index.html") cfg.lcBasePath = false from hlc]
    simp
  rw [htf]

/-- Witness for C10: on page `https://site.example/p/` the entry
`data:abc 2x` is rejected (data: scheme) and rewritten to `/index.html 2x`. -/
theorem srcset_rejected_entry_witness :
    handleSrcsetPart cfgSiteExample ([], stPageP) (str "data:abc 2x") =
      (([] : Str) ++ (',' :: str "/index.html") ++ (' ' :: str "2x"), stPageP) :=
  srcset_rejected_entry cfgSiteExample stPageP [] (str "data:abc 2x")
    (str "data:abc") (str "2x") 8
    (by decide) (by decide) (by decide) (by decide) (by decide) rfl rfl (by decide)

/-- Counterexample for C4: on page `https://site.example/p/` with default
options, `<img srcset="a.png 1x, b.png 2x">` admits nothing (bare relative
URLs are returned unchanged by resolveRelativeUrl, then fail the
required-prefix check), and the attribute is rewritten to
`/index.html 1x,/index.html 2x`, not `../p/a.png 1x,../p/b.png 2x`. -/
theorem srcset_relative_counterexample :
    (handleSrcset cfgSiteExample stPageP (str "a.png 1x, b.png 2x")).1 =
        str "/index.html 1x,/index.html 2x" ∧
      (handleSrcset cfgSiteExample stPageP (str "a.png 1x, b.png 2x")).2.urlDone = [] ∧
      str "https://site.example/p/a.png" ∉
        (handleSrcset cfgSiteExample stPageP (str "a.png 1x, b.png 2x")).2.urlDone ∧
      (handleSrcset cfgSiteExample stPageP (str "a.png 1x, b.png 2x")).1 ≠
        str "../p/a.png 1x,../p/b.png 2x" := by
  refine ⟨by decide, by decide, by decide, by decide⟩

/-- Claim C4 (amended): the srcset value is split on `,`, each part trimmed
and split at its first space into URL and descriptor, parts without a space
dropped silently, and the processed entries rejoined with `,`; but bare
relative URLs such as `a.png` are not resolved against any base, fail the
required-prefix check and are rejected, so on page `https://site.example/p/`
neither `a.png` nor `b.png` is admitted and the rewritten attribute is
`/index.html 1x,/index.html 2x` with the state unchanged. -/
theorem srcset_parts_claims :
    (∀ (cfg : CrawlConfig) (st : CrawlState) (acc part : Str),
      jsIndexOfChar (jsTrim part) ' ' = none →
      handleSrcsetPart cfg (acc, st) part = (acc, st)) ∧
    ((handleSrcset cfgSiteExample stPageP (str "a.png 1x, b.png 2x")).1 =
        str "/index.html 1x,/index.html 2x" ∧
      (handleSrcset cfgSiteExample stPageP (str "a.png 1x, b.png 2x")).2 = stPageP) := by
  refine ⟨fun cfg st acc part hnone => ?_, by decide, by decide⟩
  simp only [handleSrcsetPart, hnone]

/-- Witness for C4 (amended): the part `x` (no space) is dropped silently. -/
theorem srcset_parts_claims_witness :
    handleSrcsetPart cfgSiteExample ([], stPageP) (str "x") = ([], stPageP) :=
  srcset_parts_claims.1 cfgSiteExample stPageP [] (str "x") (by decide)

/-! ## Scheduler (core.ts lines 255-271, 380-478, 480-489, 491-618)

processUrl's network interaction is summarized by `cfg.web` (see
FetchOutcome): the retry loop is modelled separately (fetchRetryLoop); here a
200 HTML body makes the rewriter push its attribute values, a 200 CSS body
pushes the extracted URLs after cleanUpCssUrl, a redirect pushes its Location
header, and a permanently failing URL yields ERROR.  The instrumentation
field `fetched` records each processUrl call.  The JS object graph aliases
`this.currentGroup` with the group being processed; the model keeps the live
copy in `CrawlState.currentGroup` while a group is being processed, and
start() appends the final value of `currentGroup` to the queue after the
scanThisUrls pushes (the JS pushes the shared object first and mutates it
afterwards, with the same resulting queue). -/

/-- isResource (core.ts lines 480-489): the extension taken from the last
`.` of the URL's pathname must be one of the resource extensions
(core.ts lines 812-815). -/
def isResource (u : Str) : Bool :=
  let pathname := urlPathname u
  match jsLastIndexOfChar pathname '.' with
  | none => false
  | some idx =>
    let ext := pathname.drop idx
    (List.map str [".css", ".js", ".jpg", ".png", ".jpeg", ".gif",
      ".woff", ".woff2", ".ttf", ".txt", ".avif"]).contains ext

/-- processUrl (core.ts lines 491-618) under the `web` abstraction: record
the call, resolve the mapping (IGNORED when null), consult the
cache-skip combination (IGNORED when it answers true), then fetch and
process the body: HTML pushes each raw URL the rewriter finds, CSS pushes
each extracted URL surviving cleanUpCssUrl, a redirect pushes its Location
header, and a permanent failure returns ERROR. -/
def processUrl (cfg : CrawlConfig) (st : CrawlState) (url : Str) : PResult × CrawlState :=
  let st := { st with fetched := st.fetched ++ [url] }
  let localPart := url.drop cfg.basePath.length
  match cfg.urlMapping localPart with
  | none => (PResult.ignored, st)
  | some fetchUrl =>
    if (match cfg.ignoreIfCached with | some f => f url | none => false) then
      (PResult.ignored, st)
    else
      match cfg.web fetchUrl with
      | FetchOutcome.okHtml found =>
        (PResult.ok, found.foldl (fun s u => (pushUrl cfg s (some u)).2) st)
      | FetchOutcome.okCss found =>
        (PResult.ok, found.foldl (fun s u =>
          match cleanUpCssUrl cfg s.currentGroup.url u url with
          | some cleaned => (pushUrl cfg s (some cleaned)).2
          | none => s) st)
      | FetchOutcome.okOther => (PResult.ok, st)
      | FetchOutcome.redirect loc =>
        (PResult.redirected,
          match loc with
          | some l => (pushUrl cfg st (some l)).2
          | none => st)
      | FetchOutcome.failAlways => (PResult.error, st)

/-- One iteration of the stack partition (the `group.stack.forEach` body,
core.ts lines 413-429): classify the URL by isResource, drop it when the
canDownload hook denies it, and append it to the matching side. -/
def partitionStep (cfg : CrawlConfig) (acc : List Str × List Str) (url : Str) :
    List Str × List Str :=
  if isResource url then
    if (match cfg.canDownload with | some f => !f url true | none => false) then acc
    else (acc.1 ++ [url], acc.2)
  else
    if (match cfg.canDownload with | some f => !f url false | none => false) then acc
    else (acc.1, acc.2 ++ [url])

/-- The partition of a group's stack (core.ts lines 410-429): the result is
(resources, non-resources) in stack order. -/
def partitionStack (cfg : CrawlConfig) (stack : List Str) : List Str × List Str :=
  stack.foldl (partitionStep cfg) ([], [])

/-- The resource drain loop of processGroup (core.ts lines 449-468): process
the current resource list, then take whatever CSS processing pushed back onto
the group's stack as the next resource list, until the stack stays empty.
The loop is fuelled (each CSS file could push new URLs). -/
def drainLoop (cfg : CrawlConfig) : Nat → CrawlState → List Str → CrawlState
  | 0, st, _ => st
  | fuel + 1, st, resources =>
    let st := resources.foldl (fun s r => (processUrl cfg s r).2) st
    match st.currentGroup.stack with
    | some s =>
      drainLoop cfg fuel { st with currentGroup := { st.currentGroup with stack := none } } s
    | none => st

/-- processGroup (core.ts lines 399-478): set the current group, fetch its
page, partition the discovered stack (canDownload filter), enqueue the
non-resources as new groups (through sortPagesToDownload when more than one),
drain the resources, and fire onPageFullyDownloaded, whose literal `false`
halts the outer loop. -/
def processGroup (cfg : CrawlConfig) (fuel : Nat) (st : CrawlState) (group : UrlGroup) :
    Bool × CrawlState :=
  let st := { st with currentGroup := group }
  let pr := processUrl cfg st group.url
  let st := pr.2
  let st :=
    match st.currentGroup.stack with
    | none => st
    | some stack =>
      let parts := partitionStack cfg stack
      let st := { st with currentGroup := { st.currentGroup with stack := none } }
      let sorted :=
        if 1 < parts.2.length then
          match cfg.sortPagesToDownload with
          | some f => f parts.2
          | none => parts.2
        else parts.2
      let st := { st with groupStack := st.groupStack ++ sorted.map (fun u => ⟨u, none⟩) }
      drainLoop cfg fuel st parts.1
  match cfg.onPageFullyDownloaded with
  | some f => (f group.url pr.1, st)
  | none => (true, st)

/-- The loop of processStack (core.ts lines 384-389): shift groups off the
queue until it is empty or a processGroup call returns false. -/
def processStackLoop (cfg : CrawlConfig) : Nat → CrawlState → CrawlState
  | 0, st => st
  | fuel + 1, st =>
    match st.groupStack with
    | [] => st
    | g :: rest =>
      let r := processGroup cfg fuel { st with groupStack := rest } g
      if r.1 then processStackLoop cfg fuel r.2 else r.2

/-- processStack (core.ts lines 380-392): a no-op when `isStarted` is already
set; otherwise set it, run the loop, and clear it. -/
def processStack (cfg : CrawlConfig) (fuel : Nat) (st : CrawlState) : CrawlState :=
  if st.isStarted then st
  else
    let st := processStackLoop cfg fuel { st with isStarted := true }
    { st with isStarted := false }

/-- start (core.ts lines 255-271): create a group for the entry point
(default: the output origin), append it to the queue, make it current, push
every scanThisUrls entry (into that group's stack), and run processStack.
The group is appended after the scan pushes with its final stack, matching
the JS mutation of the shared object already sitting in the queue. -/
def start (cfg : CrawlConfig) (fuel : Nat) (st : CrawlState) (entryPoint : Option Str) :
    CrawlState :=
  let entry := entryPoint.getD cfg.basePath
  let st := { st with currentGroup := ⟨entry, some []⟩ }
  let st := cfg.scanThisUrls.foldl (fun s u => (pushUrl cfg s (some u)).2) st
  let st := { st with groupStack := st.groupStack ++ [st.currentGroup] }
  processStack cfg fuel st

/-- The crawler's initial state (field initializers, core.ts lines 163-179). -/
def initialState : CrawlState :=
  { urlDone := [], groupStack := [],
    currentGroup := { url := [], stack := some [] },
    isStarted := false, fetched := [] }

/-! ## Theorems for claims C9, C8 -/

/-- A state in the middle of a running crawl (isStarted set, queue empty). -/
def stRunning : CrawlState :=
  { urlDone := [], groupStack := [],
    currentGroup := { url := str "https://site", stack := some [] },
    isStarted := true, fetched := [] }

/-- Counterexample for C9: calling start() while a crawl is running (the
isStarted flag is set) does not leave the traversal state unchanged: the
group queue gains the new entry group and currentGroup is replaced, even
though nothing is fetched. -/
theorem start_reentrancy_counterexample :
    (start cfgSite 5 stRunning (some (str "https://site/p"))).groupStack ≠
        stRunning.groupStack ∧
      (start cfgSite 5 stRunning (some (str "https://site/p"))).currentGroup ≠
        stRunning.currentGroup ∧
      (start cfgSite 5 stRunning (some (str "https://site/p"))).fetched =
        stRunning.fetched := by
  refine ⟨by decide, by decide, by decide⟩

/-- Claim C9 (amended): start() itself does not check isStarted; only
processStack does.  A second start() while a crawl is running therefore
performs no fetching (processStack returns at once), but it still appends a
fresh group for the entry point to the group queue and replaces currentGroup
with it (stated here with empty scanThisUrls; configured scan URLs would
additionally be pushed). -/
theorem start_while_running (cfg : CrawlConfig) (fuel : Nat) (st : CrawlState) (e : Str)
    (hrun : st.isStarted = true) (hscan : cfg.scanThisUrls = []) :
    start cfg fuel st (some e) =
      { st with groupStack := st.groupStack ++ [⟨e, some []⟩],
                currentGroup := ⟨e, some []⟩ } := by
  simp only [start, hscan, List.foldl_nil, Option.getD_some, processStack]
  rw [if_pos hrun]

/-- Witness for C9 (amended): the concrete second call from the
counterexample state leaves fetched empty but appends the new group. -/
theorem start_while_running_witness :
    start cfgSite 5 stRunning (some (str "https://site/p")) =
      { stRunning with
          groupStack := stRunning.groupStack ++ [⟨str "https://site/p", some []⟩],
          currentGroup := ⟨str "https://site/p", some []⟩ } :=
  start_while_running cfgSite 5 stRunning (str "https://site/p") rfl rfl

/-- Crawler for C8: only `https://site/style.css` may be downloaded; the page
body references the stylesheet, and the stylesheet's CSS references
`/x.png`. -/
def cfgCanDl : CrawlConfig :=
  { cfgSite with
    canDownload := some (fun u _ => u = str "https://site/style.css"),
    web := fun u =>
      if u = str "https://site/page" then FetchOutcome.okHtml [str "/style.css"]
      else if u = str "https://site/style.css" then FetchOutcome.okCss [str "/x.png"]
      else FetchOutcome.okOther }

/-- The state in which the group for `https://site/page` is processed. -/
def stPage8 : CrawlState :=
  { urlDone := [str "https://site/page"], groupStack := [],
    currentGroup := { url := str "https://site/page", stack := none },
    isStarted := true, fetched := [] }

/-- Counterexample for C8: canDownload denies `https://site/x.png` (as
resource and as page), yet processing the page's group passes that URL to
processUrl: it is discovered by CSS processing mid-drain and drained from the
refilled stack without the canDownload check. -/
theorem canDownload_middrain_counterexample :
    (∀ (g : Str → Bool → Bool) (b : Bool), cfgCanDl.canDownload = some g →
        g (str "https://site/x.png") b = false) ∧
      str "https://site/x.png" ∈
        (processGroup cfgCanDl 3 stPage8 ⟨str "https://site/page", none⟩).2.fetched := by
  refine ⟨fun g b h => ?_, by decide⟩
  cases h
  cases b <;> decide

/-- Claim C8 (amended): the canDownload filter applies to the URLs on the
group's stack at the initial partition — a URL it denies (as resource and as
page) appears in neither partition list, so it is neither enqueued nor
drained in the first resource pass; URLs pushed onto the stack mid-drain
(e.g. by CSS processing) are drained without this check (see the
counterexample). -/
theorem partitionStack_filters (cfg : CrawlConfig) (f : Str → Bool → Bool)
    (hcd : cfg.canDownload = some f) (stack : List Str) (u : Str)
    (hden1 : f u true = false) (hden2 : f u false = false) :
    u ∉ (partitionStack cfg stack).1 ∧ u ∉ (partitionStack cfg stack).2 := by
  have main : ∀ (stack : List Str) (acc : List Str × List Str),
      u ∉ acc.1 → u ∉ acc.2 →
      u ∉ (stack.foldl (partitionStep cfg) acc).1 ∧
        u ∉ (stack.foldl (partitionStep cfg) acc).2 := by
    intro stack
    induction stack with
    | nil => intro acc h1 h2; exact ⟨h1, h2⟩
    | cons v vs ih =>
      intro acc h1 h2
      simp only [List.foldl_cons]
      apply ih
      · simp only [partitionStep, hcd]
        by_cases hv : isResource v = true
        · rw [if_pos hv]
          by_cases hskip : (!f v true) = true
          · rw [if_pos hskip]; exact h1
          · rw [if_neg hskip]
            simp only [List.mem_append, List.mem_singleton]
            rintro (hc | hc)
            · exact h1 hc
            · subst hc
              rw [hden1] at hskip
              exact hskip rfl
        · rw [if_neg hv]
          by_cases hskip : (!f v false) = true
          · rw [if_pos hskip]; exact h1
          · rw [if_neg hskip]; exact h1
      · simp only [partitionStep, hcd]
        by_cases hv : isResource v = true
        · rw [if_pos hv]
          by_cases hskip : (!f v true) = true
          · rw [if_pos hskip]; exact h2
          · rw [if_neg hskip]; exact h2
        · rw [if_neg hv]
          by_cases hskip : (!f v false) = true
          · rw [if_pos hskip]; exact h2
          · rw [if_neg hskip]
            simp only [List.mem_append, List.mem_singleton]
            rintro (hc | hc)
            · exact h2 hc
            · subst hc
              rw [hden2] at hskip
              exact hskip rfl
  exact main stack ([], []) (by simp) (by simp)

/-- Witness for C8 (amended): with the C8 configuration, the denied
`https://site/x.png` sitting on a stack is dropped from both partition
lists. -/
theorem partitionStack_filters_witness :
    str "https://site/x.png" ∉
        (partitionStack cfgCanDl [str "https://site/x.png"]).1 ∧
      str "https://site/x.png" ∉
        (partitionStack cfgCanDl [str "https://site/x.png"]).2 :=
  partitionStack_filters cfgCanDl (fun u _ => u = str "https://site/style.css")
    rfl [str "https://site/x.png"] (str "https://site/x.png") (by decide) (by decide)

/-! ## Claim C1: the at-most-once fetch invariant

Each URL placed in the scheduler's queues went through pushUrl, which refuses
URLs already in `urlDone` and records new ones; so across a crawl every URL
is scheduled at most once — except the entry point, which start() enqueues
directly without recording it.  This is captured by a counting invariant:
every URL occurs in (fetched so far ++ still pending ++ loop locals) at most
once if it is in `urlDone`, plus one extra occurrence allowed for the entry
URL. -/

/-- URLs a queued group will cause to be fetched: its page URL followed by
its pending stack. -/
def gUrls (g : UrlGroup) : List Str := g.url :: g.stack.getD []

/-- All URLs the scheduler still holds: every queued group's page and stack,
plus the current group's stack. -/
def pendingOf (st : CrawlState) : List Str :=
  (st.groupStack.map gUrls).flatten ++ st.currentGroup.stack.getD []

/-- Occurrence budget for a URL: one when it is in the seen set, plus one for
the entry URL (which start() schedules without recording it). -/
def seenBound (entry : Str) (done : List Str) (u : Str) : Nat :=
  (if u ∈ done then 1 else 0) + (if u = entry then 1 else 0)

/-- The crawl invariant, with an explicit `extra` list for URLs held in
scheduler locals (the resource list being drained, the group just shifted). -/
def InvS (entry : Str) (st : CrawlState) (extra : List Str) : Prop :=
  ∀ u : Str, (st.fetched ++ pendingOf st ++ extra).count u ≤ seenBound entry st.urlDone u

/-- Growing the seen set never shrinks the budget. -/
theorem seenBound_append (entry u : Str) (done l : List Str) :
    seenBound entry done u ≤ seenBound entry (done ++ l) u := by
  unfold seenBound
  by_cases h : u ∈ done
  · rw [if_pos h, if_pos (List.mem_append_left l h)]
  · rw [if_neg h]
    by_cases h2 : u ∈ done ++ l
    · rw [if_pos h2]; omega
    · rw [if_neg h2]

/-- pushUrl preserves the invariant: it stacks a URL only when that URL was
not yet in the seen set, and records it there in the same step. -/
theorem pushUrl_inv (cfg : CrawlConfig) (entry : Str) (st : CrawlState) (e : List Str)
    (u0 : Option Str) (h : InvS entry st e) : InvS entry (pushUrl cfg st u0).2 e := by
  cases hc : cleanUpUrl cfg st.currentGroup.url u0 with
  | none => simp only [pushUrl, hc]; exact h
  | some url =>
    simp only [pushUrl, hc]
    by_cases hd : url ∈ st.urlDone
    · rw [if_pos hd]; exact h
    · rw [if_neg hd]
      have hbump : InvS entry { st with urlDone := st.urlDone ++ [url] } e := by
        intro u
        exact le_trans (h u) (seenBound_append entry u st.urlDone [url])
      by_cases hf : url ∈ cfg.forbiddenUrls
      · rw [if_pos hf]; exact hbump
      · rw [if_neg hf]
        cases cfg.forbiddenUrls.find? (fun q => jsStartsWith url q) with
        | some q => exact hbump
        | none =>
          intro u
          have hu := h u
          simp only [pendingOf, Option.getD_some, List.count_append] at hu ⊢
          by_cases hq : u = url
          · subst hq
            rw [List.count_singleton_self]
            have h2 : seenBound entry (st.urlDone ++ [u]) u = 1 + (if u = entry then 1 else 0) := by
              simp [seenBound, List.mem_append]
            have h3 : seenBound entry st.urlDone u = 0 + (if u = entry then 1 else 0) := by
              simp [seenBound, hd]
            rw [h2]
            rw [h3] at hu
            omega
          · rw [List.count_cons_of_ne hq, List.count_nil]
            have h2 : seenBound entry (st.urlDone ++ [url]) u = seenBound entry st.urlDone u := by
              simp [seenBound, List.mem_append, hq]
            rw [h2]
            omega

/-- Invariant preservation for the scanThisUrls / HTML-found pushes. -/
theorem foldl_pushUrl_inv (cfg : CrawlConfig) (entry : Str) (l : List Str) :
    ∀ (st : CrawlState) (e : List Str), InvS entry st e →
      InvS entry (l.foldl (fun s u => (pushUrl cfg s (some u)).2) st) e := by
  induction l with
  | nil => intro st e h; simpa using h
  | cons a as ih =>
    intro st e h
    simp only [List.foldl_cons]
    exact ih _ e (pushUrl_inv cfg entry st e (some a) h)

/-- Invariant preservation for the CSS-extracted pushes. -/
theorem foldl_css_inv (cfg : CrawlConfig) (entry : Str) (orig : Str) (l : List Str) :
    ∀ (st : CrawlState) (e : List Str), InvS entry st e →
      InvS entry (l.foldl (fun s u =>
        match cleanUpCssUrl cfg s.currentGroup.url u orig with
        | some cleaned => (pushUrl cfg s (some cleaned)).2
        | none => s) st) e := by
  induction l with
  | nil => intro st e h; simpa using h
  | cons a as ih =>
    intro st e h
    simp only [List.foldl_cons]
    apply ih
    cases hc : cleanUpCssUrl cfg st.currentGroup.url a orig with
    | some cleaned =>
      simp only [hc]
      exact pushUrl_inv cfg entry st e (some cleaned) h
    | none => simp only [hc]; exact h

/-- processUrl preserves the invariant when its URL is part of the budgeted
extra list: the call moves the URL into `fetched`, and every discovery it
makes goes through pushUrl. -/
theorem processUrl_inv (cfg : CrawlConfig) (entry : Str) (st : CrawlState) (e : List Str)
    (url : Str) (h : InvS entry st (url :: e)) :
    InvS entry (processUrl cfg st url).2 e := by
  have h1 : InvS entry { st with fetched := st.fetched ++ [url] } e := by
    intro u
    have hu := h u
    simp only [pendingOf, List.count_append, List.count_cons, List.count_nil] at hu ⊢
    omega
  simp only [processUrl]
  cases hm : cfg.urlMapping (url.drop cfg.basePath.length) with
  | none => exact h1
  | some fetchUrl =>
    simp only [hm]
    by_cases hig : (match cfg.ignoreIfCached with | some f => f url | none => false) = true
    · rw [if_pos hig]; exact h1
    · rw [if_neg hig]
      cases hw : cfg.web fetchUrl with
      | okHtml found =>
        simp only [hw]
        exact foldl_pushUrl_inv cfg entry found _ e h1
      | okCss found =>
        simp only [hw]
        exact foldl_css_inv cfg entry url found _ e h1
      | okOther => simp only [hw]; exact h1
      | redirect loc =>
        simp only [hw]
        cases loc with
        | some l => exact pushUrl_inv cfg entry _ e (some l) h1
        | none => exact h1
      | failAlways => simp only [hw]; exact h1

/-- Invariant preservation for the drain pass over a resource list. -/
theorem foldl_processUrl_inv (cfg : CrawlConfig) (entry : Str) (l : List Str) :
    ∀ (st : CrawlState) (e : List Str), InvS entry st (l ++ e) →
      InvS entry (l.foldl (fun s r => (processUrl cfg s r).2) st) e := by
  induction l with
  | nil => intro st e h; simpa using h
  | cons r rs ih =>
    intro st e h
    simp only [List.foldl_cons]
    exact ih _ e (processUrl_inv cfg entry st (rs ++ e) r h)

/-- Invariant preservation for drainLoop: resources move from the budgeted
extra list into fetched, and stack refills move from pending into extra. -/
theorem drainLoop_inv (cfg : CrawlConfig) (entry : Str) :
    ∀ (fuel : Nat) (st : CrawlState) (res e : List Str),
      InvS entry st (res ++ e) → InvS entry (drainLoop cfg fuel st res) e := by
  intro fuel
  induction fuel with
  | zero =>
    intro st res e h u
    have hu := h u
    simp only [drainLoop, List.count_append] at hu ⊢
    omega
  | succ n ih =>
    intro st res e h
    simp only [drainLoop]
    have h2 := foldl_processUrl_inv cfg entry res st e h
    cases hs : (res.foldl (fun s r => (processUrl cfg s r).2) st).currentGroup.stack with
    | some s =>
      simp only [hs]
      apply ih
      intro u
      have hu := h2 u
      simp only [pendingOf, hs, Option.getD_some, Option.getD_none, List.count_append,
        List.count_nil] at hu ⊢
      omega
    | none => simp only [hs]; exact h2

/-- One partition step keeps at most the occurrences of its input URL. -/
theorem partitionStep_count (cfg : CrawlConfig) (acc : List Str × List Str) (v u : Str) :
    (partitionStep cfg acc v).1.count u + (partitionStep cfg acc v).2.count u ≤
      acc.1.count u + acc.2.count u + List.count u [v] := by
  simp only [partitionStep]
  by_cases hr : isResource v = true
  · rw [if_pos hr]
    by_cases hskip : (match cfg.canDownload with | some f => !f v true | none => false) = true
    · rw [if_pos hskip]; omega
    · rw [if_neg hskip]
      simp only [List.count_append]
      omega
  · rw [if_neg hr]
    by_cases hskip : (match cfg.canDownload with | some f => !f v false | none => false) = true
    · rw [if_pos hskip]; omega
    · rw [if_neg hskip]
      simp only [List.count_append]
      omega

/-- The partition of a stack holds at most the stack's occurrences of any
URL (the canDownload hook can only drop). -/
theorem partitionStack_count (cfg : CrawlConfig) (stack : List Str) (u : Str) :
    (partitionStack cfg stack).1.count u + (partitionStack cfg stack).2.count u ≤
      stack.count u := by
  have main : ∀ (l : List Str) (acc : List Str × List Str),
      (l.foldl (partitionStep cfg) acc).1.count u +
        (l.foldl (partitionStep cfg) acc).2.count u ≤
      acc.1.count u + acc.2.count u + l.count u := by
    intro l
    induction l with
    | nil => intro acc; simp
    | cons v vs ih =>
      intro acc
      simp only [List.foldl_cons]
      refine le_trans (ih (partitionStep cfg acc v)) ?_
      have hstep := partitionStep_count cfg acc v u
      rw [List.count_singleton] at hstep
      simp only [List.count_cons]
      omega
  have h := main stack ([], [])
  simpa [partitionStack] using h

/-- The groups enqueued for the non-resources contribute exactly those URLs
to the pending multiset. -/
theorem flatten_map_gUrls_singleton (l : List Str) :
    ((l.map (fun u => (⟨u, none⟩ : UrlGroup))).map gUrls).flatten = l := by
  induction l with
  | nil => rfl
  | cons a as ih =>
    simp only [List.map_cons, List.flatten_cons, ih]
    rfl

/-- The sortPagesToDownload reordering keeps at most the occurrences of the
input list, under the hypothesis that the configured hook does. -/
theorem sorted_count (cfg : CrawlConfig)
    (hsort : ∀ f, cfg.sortPagesToDownload = some f → ∀ (l : List Str) (u : Str),
      (f l).count u ≤ l.count u)
    (l : List Str) (u : Str) :
    (if 1 < l.length then
        match cfg.sortPagesToDownload with
        | some f => f l
        | none => l
      else l).count u ≤ l.count u := by
  by_cases hlen : 1 < l.length
  · rw [if_pos hlen]
    cases hh : cfg.sortPagesToDownload with
    | some f => exact hsort f hh l u
    | none => exact le_rfl
  · rw [if_neg hlen]

/-- processGroup preserves the invariant when the group's URLs are budgeted:
the page moves into fetched, the stack is partitioned (only dropping),
non-resources are re-enqueued and resources drained. -/
theorem processGroup_inv (cfg : CrawlConfig) (entry : Str)
    (hsort : ∀ f, cfg.sortPagesToDownload = some f → ∀ (l : List Str) (u : Str),
      (f l).count u ≤ l.count u)
    (fuel : Nat) (st : CrawlState) (g : UrlGroup) (e : List Str)
    (h : InvS entry st (gUrls g ++ e)) :
    InvS entry (processGroup cfg fuel st g).2 e := by
  have h1 : InvS entry { st with currentGroup := g } (g.url :: e) := by
    intro u
    have hu := h u
    simp only [pendingOf, gUrls, List.count_append, List.count_cons] at hu ⊢
    omega
  have h2 := processUrl_inv cfg entry { st with currentGroup := g } e g.url h1
  simp only [processGroup]
  cases hs : (processUrl cfg { st with currentGroup := g } g.url).2.currentGroup.stack with
  | none =>
    simp only [hs]
    cases hh : cfg.onPageFullyDownloaded with
    | some f => simp only [hh]; exact h2
    | none => simp only [hh]; exact h2
  | some stack =>
    simp only [hs]
    have hmain : ∀ (sorted : List Str),
        (∀ u, sorted.count u ≤ (partitionStack cfg stack).2.count u) →
        InvS entry
          { (processUrl cfg { st with currentGroup := g } g.url).2 with
            currentGroup :=
              { (processUrl cfg { st with currentGroup := g } g.url).2.currentGroup with
                stack := none },
            groupStack := (processUrl cfg { st with currentGroup := g } g.url).2.groupStack ++
              (sorted.map (fun u => (⟨u, none⟩ : UrlGroup))) }
          ((partitionStack cfg stack).1 ++ e) := by
      intro sorted hsortcnt
      intro u
      have hu := h2 u
      have hpart := partitionStack_count cfg stack u
      have hsorted := hsortcnt u
      simp only [pendingOf, hs, Option.getD_some, Option.getD_none, List.count_nil,
        List.map_append, List.flatten_append, flatten_map_gUrls_singleton,
        List.count_append] at hu ⊢
      omega
    have h3 := hmain
      (if 1 < (partitionStack cfg stack).2.length then
          match cfg.sortPagesToDownload with
          | some f => f (partitionStack cfg stack).2
          | none => (partitionStack cfg stack).2
        else (partitionStack cfg stack).2)
      (fun u => sorted_count cfg hsort (partitionStack cfg stack).2 u)
    have h4 := drainLoop_inv cfg entry fuel _ _ e h3
    cases hh : cfg.onPageFullyDownloaded with
    | some f => simp only [hh]; exact h4
    | none => simp only [hh]; exact h4

/-- The processStack loop preserves the invariant. -/
theorem processStackLoop_inv (cfg : CrawlConfig) (entry : Str)
    (hsort : ∀ f, cfg.sortPagesToDownload = some f → ∀ (l : List Str) (u : Str),
      (f l).count u ≤ l.count u) :
    ∀ (fuel : Nat) (st : CrawlState), InvS entry st [] →
      InvS entry (processStackLoop cfg fuel st) [] := by
  intro fuel
  induction fuel with
  | zero => intro st h; exact h
  | succ n ih =>
    intro st h
    cases hq : st.groupStack with
    | nil => simp only [processStackLoop, hq]; exact h
    | cons g rest =>
      simp only [processStackLoop, hq]
      have h1 : InvS entry { st with groupStack := rest } (gUrls g ++ []) := by
        intro u
        have hu := h u
        simp only [pendingOf, hq, List.map_cons, List.flatten_cons, List.count_append,
          List.append_nil] at hu ⊢
        omega
      have h2 := processGroup_inv cfg entry hsort n { st with groupStack := rest } g [] h1
      by_cases hcont : (processGroup cfg n { st with groupStack := rest } g).1 = true
      · rw [if_pos hcont]; exact ih _ h2
      · rw [if_neg hcont]; exact h2

/-- pushUrl touches only the seen set and the current group's stack: the
queue, the started flag, the fetched record and the current page URL are
unchanged. -/
theorem pushUrl_preserves (cfg : CrawlConfig) (st : CrawlState) (u0 : Option Str) :
    (pushUrl cfg st u0).2.groupStack = st.groupStack ∧
      (pushUrl cfg st u0).2.isStarted = st.isStarted ∧
      (pushUrl cfg st u0).2.fetched = st.fetched ∧
      (pushUrl cfg st u0).2.currentGroup.url = st.currentGroup.url := by
  cases hc : cleanUpUrl cfg st.currentGroup.url u0 with
  | none => simp [pushUrl, hc]
  | some url =>
    simp only [pushUrl, hc]
    by_cases hd : url ∈ st.urlDone
    · rw [if_pos hd]; exact ⟨rfl, rfl, rfl, rfl⟩
    · rw [if_neg hd]
      by_cases hf : url ∈ cfg.forbiddenUrls
      · rw [if_pos hf]; exact ⟨rfl, rfl, rfl, rfl⟩
      · rw [if_neg hf]
        cases cfg.forbiddenUrls.find? (fun q => jsStartsWith url q) with
        | some q => exact ⟨rfl, rfl, rfl, rfl⟩
        | none => exact ⟨rfl, rfl, rfl, rfl⟩

/-- The scanThisUrls pushes preserve the same four fields. -/
theorem foldl_pushUrl_preserves (cfg : CrawlConfig) (l : List Str) :
    ∀ (st : CrawlState),
      (l.foldl (fun s u => (pushUrl cfg s (some u)).2) st).groupStack = st.groupStack ∧
      (l.foldl (fun s u => (pushUrl cfg s (some u)).2) st).isStarted = st.isStarted ∧
      (l.foldl (fun s u => (pushUrl cfg s (some u)).2) st).fetched = st.fetched ∧
      (l.foldl (fun s u => (pushUrl cfg s (some u)).2) st).currentGroup.url =
        st.currentGroup.url := by
  induction l with
  | nil => intro st; exact ⟨rfl, rfl, rfl, rfl⟩
  | cons a as ih =>
    intro st
    simp only [List.foldl_cons]
    have h1 := pushUrl_preserves cfg st (some a)
    have h2 := ih (pushUrl cfg st (some a)).2
    exact ⟨h2.1.trans h1.1, h2.2.1.trans h1.2.1, h2.2.2.1.trans h1.2.2.1,
      h2.2.2.2.trans h1.2.2.2⟩

/-- processGroup overwrites currentGroup first, so the incoming value of that
field is irrelevant. -/
theorem processGroup_currentGroup (cfg : CrawlConfig) (fuel : Nat) (st : CrawlState)
    (c : UrlGroup) (g : UrlGroup) :
    processGroup cfg fuel { st with currentGroup := c } g = processGroup cfg fuel st g := rfl

/-- With a non-empty queue, the loop's first iteration overwrites
currentGroup, so the observable outcome (fetched record and seen set) does
not depend on the incoming currentGroup. -/
theorem processStackLoop_currentGroup (cfg : CrawlConfig) (fuel : Nat) (st : CrawlState)
    (c : UrlGroup) (h : st.groupStack ≠ []) :
    (processStackLoop cfg fuel { st with currentGroup := c }).fetched =
        (processStackLoop cfg fuel st).fetched ∧
      (processStackLoop cfg fuel { st with currentGroup := c }).urlDone =
        (processStackLoop cfg fuel st).urlDone := by
  cases fuel with
  | zero => exact ⟨rfl, rfl⟩
  | succ n =>
    cases hq : st.groupStack with
    | nil => exact absurd hq h
    | cons g rest =>
      have hq2 : ({ st with currentGroup := c } : CrawlState).groupStack = g :: rest := hq
      simp only [processStackLoop, hq, hq2]
      exact ⟨rfl, rfl⟩

/-- Core of the C1 bound: from the state reached by start() just before
processStack (empty queue holding only the entry group, nothing fetched), the
crawl fetches each URL at most its budget: once if recorded in the seen set,
plus one extra occurrence for the entry URL. -/
theorem crawl_core (cfg : CrawlConfig) (entry : Str) (fuel : Nat)
    (hsort : ∀ f, cfg.sortPagesToDownload = some f → ∀ (l : List Str) (u : Str),
      (f l).count u ≤ l.count u)
    (stB : CrawlState)
    (hq : stB.groupStack = [])
    (hst : stB.isStarted = false)
    (hf : stB.fetched = [])
    (hcu : stB.currentGroup.url = entry)
    (hInvB : InvS entry stB [entry]) :
    ∀ u : Str,
      (processStack cfg fuel
          { stB with groupStack := stB.groupStack ++ [stB.currentGroup] }).fetched.count u ≤
        seenBound entry
          (processStack cfg fuel
            { stB with groupStack := stB.groupStack ++ [stB.currentGroup] }).urlDone u := by
  intro u
  rw [hq]
  simp only [List.nil_append]
  have hInvD : InvS entry
      { stB with
        groupStack := [stB.currentGroup]
        isStarted := true
        currentGroup := (⟨[], none⟩ : UrlGroup) } [] := by
    intro v
    have hv := hInvB v
    simp only [pendingOf, gUrls, List.map_cons, List.map_nil, List.flatten_cons,
      List.flatten_nil, List.append_nil, Option.getD_none, List.count_append,
      List.count_cons, List.count_nil, hf, hq, hcu] at hv ⊢
    omega
  have hirr := processStackLoop_currentGroup cfg fuel
    { stB with
      groupStack := [stB.currentGroup]
      isStarted := true
      currentGroup := (⟨[], none⟩ : UrlGroup) }
    stB.currentGroup (by simp)
  have heqf : (processStackLoop cfg fuel
        { { stB with groupStack := [stB.currentGroup] } with isStarted := true }).fetched =
      (processStackLoop cfg fuel
        { stB with
          groupStack := [stB.currentGroup]
          isStarted := true
          currentGroup := (⟨[], none⟩ : UrlGroup) }).fetched := hirr.1
  have heqd : (processStackLoop cfg fuel
        { { stB with groupStack := [stB.currentGroup] } with isStarted := true }).urlDone =
      (processStackLoop cfg fuel
        { stB with
          groupStack := [stB.currentGroup]
          isStarted := true
          currentGroup := (⟨[], none⟩ : UrlGroup) }).urlDone := hirr.2
  have key := (processStackLoop_inv cfg entry hsort fuel _ hInvD) u
  simp only [processStack]
  rw [if_neg (by
    rw [show ({ stB with groupStack := [stB.currentGroup] } : CrawlState).isStarted =
      stB.isStarted from rfl, hst]
    simp)]
  dsimp only
  rw [heqf, heqd]
  simp only [List.count_append] at key
  omega

/-- Claim C1 (amended): over a crawl begun by a single start() call, every
URL other than the entry point is passed to processUrl at most once, and any
such URL that was fetched is recorded in the seen set (urlDone) at the end;
the entry-point URL is enqueued by start() without being recorded, so it may
be passed to processUrl up to twice (once as the entry and once when
rediscovered through a link).  The sortPagesToDownload hook is assumed not to
duplicate URLs (UrlSortTools can only partition, permute and drop). -/
theorem crawl_fetch_at_most_once (cfg : CrawlConfig) (fuel : Nat) (entry : Str)
    (hsort : ∀ f, cfg.sortPagesToDownload = some f → ∀ (l : List Str) (u : Str),
      (f l).count u ≤ l.count u) :
    (∀ u : Str, u ≠ entry →
      (start cfg fuel initialState (some entry)).fetched.count u ≤ 1 ∧
      (1 ≤ (start cfg fuel initialState (some entry)).fetched.count u →
        u ∈ (start cfg fuel initialState (some entry)).urlDone)) ∧
    (start cfg fuel initialState (some entry)).fetched.count entry ≤ 2 := by
  have hInvA : InvS entry
      { initialState with currentGroup := (⟨entry, some []⟩ : UrlGroup) } [entry] := by
    intro v
    by_cases hv : v = entry
    · subst hv
      simp [initialState, pendingOf, seenBound, gUrls]
    · simp [initialState, pendingOf, seenBound, gUrls, List.count_cons_of_ne hv]
  have hInvB := foldl_pushUrl_inv cfg entry cfg.scanThisUrls
    { initialState with currentGroup := (⟨entry, some []⟩ : UrlGroup) } [entry] hInvA
  have hpres := foldl_pushUrl_preserves cfg cfg.scanThisUrls
    { initialState with currentGroup := (⟨entry, some []⟩ : UrlGroup) }
  have hq : (cfg.scanThisUrls.foldl (fun s u => (pushUrl cfg s (some u)).2)
      { initialState with currentGroup := (⟨entry, some []⟩ : UrlGroup) }).groupStack = [] :=
    hpres.1
  have hst : (cfg.scanThisUrls.foldl (fun s u => (pushUrl cfg s (some u)).2)
      { initialState with currentGroup := (⟨entry, some []⟩ : UrlGroup) }).isStarted = false :=
    hpres.2.1
  have hf : (cfg.scanThisUrls.foldl (fun s u => (pushUrl cfg s (some u)).2)
      { initialState with currentGroup := (⟨entry, some []⟩ : UrlGroup) }).fetched = [] :=
    hpres.2.2.1
  have hcu : (cfg.scanThisUrls.foldl (fun s u => (pushUrl cfg s (some u)).2)
      { initialState with currentGroup := (⟨entry, some []⟩ : UrlGroup) }).currentGroup.url =
      entry :=
    hpres.2.2.2
  have hcore := crawl_core cfg entry fuel hsort
    (cfg.scanThisUrls.foldl (fun s u => (pushUrl cfg s (some u)).2)
      { initialState with currentGroup := (⟨entry, some []⟩ : UrlGroup) })
    hq hst hf hcu hInvB
  have hc : ∀ u : Str,
      (start cfg fuel initialState (some entry)).fetched.count u ≤
        seenBound entry (start cfg fuel initialState (some entry)).urlDone u :=
    fun u => hcore u
  constructor
  · intro u hu
    constructor
    · refine le_trans (hc u) ?_
      by_cases hmem : u ∈ (start cfg fuel initialState (some entry)).urlDone <;>
        simp [seenBound, hu, hmem]
    · intro h1
      by_cases hmem : u ∈ (start cfg fuel initialState (some entry)).urlDone
      · exact hmem
      · exfalso
        have hb := hc u
        rw [show seenBound entry (start cfg fuel initialState (some entry)).urlDone u = 0 from
          by simp [seenBound, hu, hmem]] at hb
        omega
  · refine le_trans (hc entry) ?_
    by_cases hmem : entry ∈ (start cfg fuel initialState (some entry)).urlDone <;>
      simp [seenBound, hmem]

/-- Crawler for the C1 counterexample: the page `https://site/p` links back to
itself via `/p`. -/
def cfgLoop : CrawlConfig :=
  { cfgSite with
    web := fun u =>
      if u = str "https://site/p" then FetchOutcome.okHtml [str "/p"]
      else FetchOutcome.okOther }

/-- Counterexample for C1: starting the crawl at `https://site/p`, whose page
links to `/p` (itself), passes the entry URL to processUrl twice — start()
enqueues the entry without recording it in urlDone, and the link re-admits
it — so the entry URL is fetched twice, not at most once. -/
theorem entry_fetched_twice_counterexample :
    (start cfgLoop 5 initialState (some (str "https://site/p"))).fetched.count
        (str "https://site/p") = 2 := by
  decide

/-- Witness for C1 (amended): applying the bound to the self-linking crawler,
a non-entry URL is fetched at most once and the entry at most twice. -/
theorem crawl_fetch_at_most_once_witness :
    (str "https://site/x" ≠ str "https://site/p" ∧
      (start cfgLoop 5 initialState (some (str "https://site/p"))).fetched.count
          (str "https://site/x") ≤ 1) ∧
    (start cfgLoop 5 initialState (some (str "https://site/p"))).fetched.count
        (str "https://site/p") ≤ 2 := by
  have h := crawl_fetch_at_most_once cfgLoop 5 (str "https://site/p")
    (fun f hf => absurd hf (by simp [cfgLoop, cfgSite]))
  exact ⟨⟨by decide, (h.1 (str "https://site/x") (by decide)).1⟩, h.2⟩
